import Mathlib

/-!
Verification of the `gits` command-line tool (repository discovery, filter
pipeline, per-repository command execution / status inspection, bounded
parallel orchestration, result aggregation).

The Go source is shallowly embedded: external `git` invocations are modelled
by their results (`Except String String` — either an execution error or the
captured standard output), pure string manipulation is translated directly,
the directory tree walked by `filepath.Walk` is modelled as a rose tree, and
the semaphore-bounded orchestration loop is modelled as a labelled transition
system.
-/

namespace Gits

/-! ## String helpers (Go `strings` package operations used by the source) -/

/-- `strings.HasPrefix` on character lists. -/
def startsWithCL : List Char → List Char → Bool
  | _, [] => true
  | [], _ :: _ => false
  | a :: s, b :: p => a = b && startsWithCL s p

/-- `strings.Contains` on character lists. -/
def containsCL (s pat : List Char) : Bool :=
  match s with
  | [] => pat.isEmpty
  | _ :: t => startsWithCL s pat || containsCL t pat

/-- `strings.HasPrefix s pat`. -/
def strStartsWith (s pat : String) : Bool :=
  startsWithCL s.toList pat.toList

/-- `strings.Contains s pat`. -/
def strContainsSub (s pat : String) : Bool :=
  containsCL s.toList pat.toList

/-- `strings.SplitN(s, "\n", 2)[0]`: everything up to the first newline. -/
def firstLineOf (s : String) : String :=
  String.mk (s.toList.takeWhile (fun c => c ≠ '\n'))

/-! ## Git query functions (from `getCurrentBranch`, `getDefaultBranch`,
`getLocalBranches`, `isDirty`, `isClean`, `getRemoteSyncStatus`).

Each takes the result of the underlying `git` subprocess invocation:
`.error e` when `cmd.Output()` failed, `.ok out` with the captured stdout
otherwise. -/

/-- `getCurrentBranch`: trim the output of `git rev-parse --abbrev-ref HEAD`. -/
def getCurrentBranch (o : Except String String) : Except String String :=
  match o with
  | .error e => .error e
  | .ok out => .ok out.trim

/-- `getDefaultBranch`: trim the output of `git config get init.defaultbranch`;
an empty result defaults to `"main"`. -/
def getDefaultBranch (o : Except String String) : Except String String :=
  match o with
  | .error e => .error e
  | .ok out =>
    let res := out.trim
    if res = "" then .ok "main" else .ok res

/-- `getLocalBranches`: split `git branch --format %(refname:short)` output on
newlines, trim each name, drop empties. -/
def getLocalBranches (o : Except String String) : Except String (List String) :=
  match o with
  | .error e => .error e
  | .ok out => .ok (((out.splitOn "\n").map String.trim).filter (fun n => n ≠ ""))

/-- `isDirty`: non-empty `git status --porcelain` output. -/
def isDirty (o : Except String String) : Except String Bool :=
  match o with
  | .error e => .error e
  | .ok out => .ok (out.length > 0)

/-- `isClean`: empty `git status --porcelain` output. -/
def isClean (o : Except String String) : Except String Bool :=
  match o with
  | .error e => .error e
  | .ok out => .ok (out.length = 0)

/-- The three-valued remote synchronisation state. -/
inductive RemoteSyncState where
  | BehindRemote
  | SyncRemote
  | AheadRemote
deriving DecidableEq, Repr

/-- `getRemoteSyncStatus`: inspect the first line of
`git status --porcelain --branch`. Returns the state plus the `error` return
value of the Go function (`none` when the Go error was `nil`). -/
def getRemoteSyncStatus (o : Except String String) : RemoteSyncState × Option String :=
  match o with
  | .error e => (.SyncRemote, some e)
  | .ok out =>
    let firstLine := firstLineOf out
    if !(strStartsWith firstLine "##") then
      (.SyncRemote, some ("first line `" ++ firstLine ++ "` does not start with expected `##`"))
    else if strContainsSub firstLine "[behind" then (.BehindRemote, none)
    else if strContainsSub firstLine "[ahead" then (.AheadRemote, none)
    else (.SyncRemote, none)

/-! ## Filter pipeline (from `type filter` and the filter loop in `main`) -/

/-- A repository path, as the list of path segments from the filesystem root. -/
abbrev GPath := List String

/-- `type filter func(path string) (bool, error)`; `.ok b` models a `nil`
error with boolean result `b`, `.error e` a non-nil error. -/
abbrev GFilter := GPath → Except String Bool

/-- A single filter keeps a repository exactly when it returns `(true, nil)`;
the walk callback excludes on `err != nil || !r`. -/
def filterOk (r : Except String Bool) : Bool :=
  match r with
  | .ok true => true
  | _ => false

/-- The filter loop in `main`'s walk callback: every filter must return
`(true, nil)` for the repository to be recorded. -/
def checkFilters (fs : List GFilter) (p : GPath) : Bool :=
  fs.all (fun f => filterOk (f p))

/-! ## Filesystem model and repository discovery (`isGitRepo` and the
`filepath.Walk` callback in `main`) -/

/-- A filesystem entry: a named directory with children, or a plain file. -/
inductive FSEntry : Type where
  | dir (name : String) (children : List FSEntry)
  | file (name : String)

/-- `isGitRepo`: the directory's children contain a directory named `.git`. -/
def isGitRepoC (cs : List FSEntry) : Bool :=
  cs.any (fun e =>
    match e with
    | .dir n _ => n = ".git"
    | .file _ => false)

/-- The name of an entry. -/
def entryName : FSEntry → String
  | .dir n _ => n
  | .file n => n

/-- The names of a list of sibling entries. -/
def namesOf (cs : List FSEntry) : List String :=
  cs.map entryName

/-- Sibling entries have pairwise distinct names (true of real directories). -/
def nodupNames (cs : List FSEntry) : Bool :=
  decide (namesOf cs).Nodup

mutual

/-- Well-formedness of an entry: every directory at every depth has children
with pairwise distinct names. -/
def wfEntry : FSEntry → Bool
  | .file _ => true
  | .dir _ cs => nodupNames cs && wfChildren cs

/-- Well-formedness of a list of entries (children-name uniqueness is checked
at the enclosing directory). -/
def wfChildren : List FSEntry → Bool
  | [] => true
  | e :: rest => wfEntry e && wfChildren rest

end

/-- Well-formedness of a children list together with its own name uniqueness. -/
def wfL (cs : List FSEntry) : Bool :=
  nodupNames cs && wfChildren cs

mutual

/-- The `filepath.Walk` callback of `main`, restricted to a subtree: visiting
entry `e` whose parent directory has path `pre`. A directory that is a git
repository is recorded iff every filter passes, and its subtree is pruned
(`filepath.SkipDir`) whether or not it was recorded; otherwise the walk
descends into the children. Files are ignored by the callback. -/
def walkDir (fs : List GFilter) (pre : GPath) : FSEntry → List GPath
  | .file _ => []
  | .dir n cs =>
    if isGitRepoC cs then
      if checkFilters fs (pre ++ [n]) then [pre ++ [n]] else []
    else
      walkList fs (pre ++ [n]) cs

/-- Walk each child in order, concatenating the recorded repositories. -/
def walkList (fs : List GFilter) (pre : GPath) : List FSEntry → List GPath
  | [] => []
  | e :: rest => walkDir fs pre e ++ walkList fs pre rest

end

mutual

/-- All git-repository directories in the subtree rooted at `e` (no pruning,
no filtering): the reference set against which discovery is characterised. -/
def reposDir (pre : GPath) : FSEntry → List GPath
  | .file _ => []
  | .dir n cs =>
    (if isGitRepoC cs then [pre ++ [n]] else []) ++ reposList (pre ++ [n]) cs

/-- All git-repository directories in any of the subtrees of `cs`. -/
def reposList (pre : GPath) : List FSEntry → List GPath
  | [] => []
  | e :: rest => reposDir pre e ++ reposList pre rest

end

/-- Display form of a segment path (Go keeps paths as `/`-joined strings). -/
def pathStr (p : GPath) : String :=
  String.intercalate "/" p

/-- `sort.Strings`: lexicographic sort of a string list. -/
def sortStrings (l : List String) : List String :=
  List.insertionSort (fun a b => a ≤ b) l

/-- The discovery phase of `main`: walk the tree rooted at the resolved
working directory, then `sort.Strings(gitRepos)`. -/
def discoverRepos (fs : List GFilter) (root : FSEntry) : List String :=
  sortStrings ((walkDir fs [] root).map pathStr)

/-! ## Walk callback actions (error handling of the `filepath.Walk` closure) -/

/-- Return value of the walk callback: `nil` (keep descending),
`filepath.SkipDir`, or a non-nil error that aborts the walk. -/
inductive WalkAction where
  | next
  | skipDir
  | fail (msg : String)
deriving DecidableEq, Repr

/-- The walk callback of `main` at a single visited entry: `inErr` is the
incoming walk error, `isDir`/`isRepo` the visited entry's properties. Returns
the action and whether the path was appended to `gitRepos`. -/
def walkFn (fs : List GFilter) (p : GPath) (isDir isRepo : Bool) (inErr : Option String) :
    WalkAction × Bool :=
  match inErr with
  | some e => (.fail e, false)
  | none =>
    if isDir && isRepo then
      if checkFilters fs p then (.skipDir, true) else (.skipDir, false)
    else (.next, false)

/-! ## Command executor (`runCommand`, `processRepo`) and exit aggregation -/

/-- The two ways `cmd.Run()` can fail: the process exited with code `k`
(`*exec.ExitError`), or any other failure (e.g. executable not found). -/
inductive RunErr where
  | exitErr (code : Int)
  | otherErr
deriving DecidableEq, Repr

/-- The exit-code determination of `runCommand`: `nil` error means 0, an
`ExitError` yields its code, any other error yields 1. -/
def exitCodeOf : Option RunErr → Int
  | none => 0
  | some (.exitErr k) => k
  | some .otherErr => 1

/-- `runCommand`: captured combined output plus the determined exit code. -/
def runCommand (output : String) (runErr : Option RunErr) : String × Int :=
  (output, exitCodeOf runErr)

/-- The formatted result block built by `processRepo`. -/
def processRepoResult (relPath output : String) (exitCode : Int) : String :=
  let status := if exitCode ≠ 0 then "❌" else "✅️"
  "\x1b[1m" ++ status ++ " " ++ relPath ++ ":\x1b[0m\n  " ++
    (output.replace "\n" "\n  ")

/-- `processRepo`'s effect on the shared state (results list, final exit
code): append the formatted block; set the exit code to 1 iff the command
exited non-zero, otherwise leave it unchanged. -/
def processRepoStep (relPath output : String) (exitCode : Int)
    (st : List String × Nat) : List String × Nat :=
  (st.1 ++ [processRepoResult relPath output exitCode],
   if exitCode ≠ 0 then 1 else st.2)

/-- Command mode: fold `processRepo` over the per-repository task outcomes
(relative path, captured output, exit code), starting from the initial state
(no results, `finalExitCode = 0`). -/
def runCommandMode (tasks : List (String × String × Int)) : List String × Nat :=
  tasks.foldl (fun st t => processRepoStep t.1 t.2.1 t.2.2 st) ([], 0)

/-! ## Status inspector (`statusRepo` and the per-field degradation of its
sub-queries) -/

/-- The current branch as used by `statusRepo`: on error, a placeholder
carrying the error text. -/
def currentBranchOf (o : Except String String) : String :=
  match getCurrentBranch o with
  | .ok b => b
  | .error e => "!" ++ e

/-- The default branch as used by `statusRepo`: on error, `"main"`. -/
def defaultBranchOf (o : Except String String) : String :=
  match getDefaultBranch o with
  | .ok b => b
  | .error _ => "main"

/-- The remote sync state as used by `statusRepo`: on error, `SyncRemote`. -/
def remoteSyncOf (o : Except String String) : RemoteSyncState :=
  match getRemoteSyncStatus o with
  | (s, none) => s
  | (_, some _) => .SyncRemote

/-- The cleanliness as used by `statusRepo`: on error, not clean. -/
def cleanOf (o : Except String String) : Bool :=
  match isClean o with
  | .ok b => b
  | .error _ => false

/-- The local branch list as used by `statusRepo` (the error return of
`getLocalBranches` is ignored, leaving a `nil` slice). -/
def localBranchesOf (o : Except String String) : List String :=
  match getLocalBranches o with
  | .ok l => l
  | .error _ => []

/-- `slices.DeleteFunc(localBranches, x == currentBranch)` then
`sort.Strings`: the other local branches, sorted. -/
def otherBranchesOf (o : Except String String) (currentBranch : String) : List String :=
  sortStrings ((localBranchesOf o).filter (fun x => x ≠ currentBranch))

/-- `fmt.Sprintf("%-Ws", s)`: left-justify in a column of width `w`. -/
def padRight (s : String) (w : Nat) : String :=
  s ++ String.mk (List.replicate (w - s.length) ' ')

/-- `statusRepo`: build the status line from the five git sub-query results
(current branch, default branch, remote sync, cleanliness, local branches). -/
def statusRepo (relPath : String) (width : Nat)
    (curOut defOut remOut cleanOut brOut : Except String String) : String :=
  let currentBranch := currentBranchOf curOut
  let defaultBranch := defaultBranchOf defOut
  let remoteSync := remoteSyncOf remOut
  let clean := cleanOf cleanOut
  let localBranches := otherBranchesOf brOut currentBranch
  let branchSeg :=
    (if currentBranch = defaultBranch then " [\x1b[1;32m" else " [\x1b[1;31m") ++
      currentBranch ++ "\x1b[0m]"
  let statusStr :=
    (if clean then "" else "📝") ++
      (match remoteSync with
       | .BehindRemote => "😰"
       | .AheadRemote => "🏎💨"
       | .SyncRemote => "")
  let branches := branchSeg ++
    (if statusStr ≠ "" then "\x1b[31m(\x1b[0m" ++ statusStr ++ "\x1b[31m)\x1b[0m" else "") ++
    String.join (localBranches.map (fun name => " [\x1b[34m" ++ name ++ "\x1b[0m]"))
  "\x1b[1m" ++ padRight relPath width ++ "\x1b[0m" ++ branches

/-- `statusRepo`'s effect on the shared state: append the status line and
leave `finalExitCode` untouched (the status inspector never sets it). -/
def statusRepoStep (relPath : String) (width : Nat)
    (curOut defOut remOut cleanOut brOut : Except String String)
    (st : List String × Nat) : List String × Nat :=
  (st.1 ++ [statusRepo relPath width curOut defOut remOut cleanOut brOut], st.2)

/-- Status mode: fold `statusRepo` over the per-repository query results. -/
def runStatusMode (width : Nat)
    (tasks : List (String × Except String String × Except String String ×
      Except String String × Except String String × Except String String)) :
    List String × Nat :=
  tasks.foldl
    (fun st t => statusRepoStep t.1 width t.2.1 t.2.2.1 t.2.2.2.1 t.2.2.2.2.1 t.2.2.2.2.2 st)
    ([], 0)

/-- The process exit: fatal discovery errors exit 1 before orchestration;
otherwise `os.Exit(finalExitCode)`. -/
def mainExit (fatal : Bool) (finalExitCode : Nat) : Nat :=
  if fatal then 1 else finalExitCode

/-! ## Status-mode column width (the `longestName` loop of the status
`applyAction` closure in `main`) -/

/-- The `longestName` loop: the maximum relative-path length over all matched
repositories (`relOf` models `filepath.Rel(cwd, ·)`). -/
def longestName (relOf : String → String) (gitRepos : List String) : Nat :=
  gitRepos.foldl
    (fun acc repo => if (relOf repo).length > acc then (relOf repo).length else acc) 0

/-- The status `applyAction` closure: compute `longestName` over the full
repository list, then render this repository's status line with it. -/
def applyStatusAction (relOf : String → String) (gitRepos : List String) (path : String)
    (curOut defOut remOut cleanOut brOut : Except String String) : String :=
  statusRepo (relOf path) (longestName relOf gitRepos) curOut defOut remOut cleanOut brOut

/-! ## Mode selection (`-status` flag versus trailing command, in `main`) -/

/-- The action dispatched per repository. -/
inductive ActionChoice where
  | statusAction
  | commandAction (cmd : List String)
deriving DecidableEq, Repr

/-- `main`'s mode selection: with `-status`, the status action is chosen and
the trailing arguments are never consulted; otherwise an empty trailing
command is the fatal "No command provided" exit. -/
def chooseAction (statusFlag : Bool) (args : List String) : Except String ActionChoice :=
  if statusFlag then .ok .statusAction
  else if args.isEmpty then .error "No command provided"
  else .ok (.commandAction args)

/-- One task per matched repository, all running the selected action. -/
def dispatchActions (statusFlag : Bool) (args : List String) (repos : List String) :
    Except String (List (String × ActionChoice)) :=
  match chooseAction statusFlag args with
  | .error e => .error e
  | .ok a => .ok (repos.map (fun r => (r, a)))

/-! ## Result printing (`sort.Strings(results)` then one `fmt.Println` per
result, in `main`) -/

/-- The final output: results sorted lexicographically, one per line. -/
def printedResults (results : List String) : String :=
  String.join ((sortStrings results).map (fun r => r ++ "\n"))

/-! ## Task orchestration (the semaphore-bounded dispatch loop of `main`)

The loop `sem <- struct{}{}; go func(){ defer func(){ <-sem }(); ... }` is
modelled as a transition system: a task is admitted (acquiring a semaphore
slot) only while fewer than `cap` tasks hold slots, and a running task may
finish at any time, releasing its slot. -/

/-- Orchestration state: tasks not yet admitted, tasks holding a semaphore
slot (running), tasks completed. -/
structure OrchState where
  pending : Nat
  running : Nat
  done : Nat
deriving DecidableEq, Repr

/-- One scheduler step with semaphore capacity `cap`. -/
inductive orchStep (cap : Nat) : OrchState → OrchState → Prop where
  | acquire (s : OrchState) : 0 < s.pending → s.running < cap →
      orchStep cap s ⟨s.pending - 1, s.running + 1, s.done⟩
  | finish (s : OrchState) : 0 < s.running →
      orchStep cap s ⟨s.pending, s.running - 1, s.done + 1⟩

/-- The initial state: all `total` discovered repositories pending. -/
def orchInit (total : Nat) : OrchState :=
  ⟨total, 0, 0⟩

/-- Reachability from the initial state. -/
def orchReach (cap total : Nat) (s : OrchState) : Prop :=
  Relation.ReflTransGen (orchStep cap) (orchInit total) s

/-! ## Helper lemmas -/

theorem filterOk_iff (r : Except String Bool) : filterOk r = true ↔ r = .ok true := by
  cases r with
  | error e => simp [filterOk]
  | ok b => cases b <;> simp [filterOk]

theorem checkFilters_iff (fs : List GFilter) (p : GPath) :
    checkFilters fs p = true ↔ ∀ f ∈ fs, f p = .ok true := by
  simp [checkFilters, List.all_eq_true, filterOk_iff]

theorem checkFilters_mono (fs fs' : List GFilter) (hsub : ∀ f ∈ fs, f ∈ fs')
    (p : GPath) (h : checkFilters fs' p = true) : checkFilters fs p = true := by
  rw [checkFilters_iff] at h ⊢
  exact fun f hf => h f (hsub f hf)

/-- C2: filters are composed by logical AND; the empty filter set matches
every repository; a filter returning a non-nil error behaves exactly like one
returning `false` — the repository is excluded but the walk callback returns
`SkipDir`, never an error that would abort the traversal. -/
theorem c2_filter_composition (p : GPath) :
    (∀ fs : List GFilter, checkFilters fs p = true ↔ ∀ f ∈ fs, f p = .ok true) ∧
    checkFilters [] p = true ∧
    (∀ (fs₁ fs₂ : List GFilter) (f : GFilter) (e : String), f p = .error e →
      checkFilters (fs₁ ++ f :: fs₂) p =
        checkFilters (fs₁ ++ (fun _ => .ok false) :: fs₂) p ∧
      checkFilters (fs₁ ++ f :: fs₂) p = false) ∧
    (∀ (fs : List GFilter) (f : GFilter) (e : String), f ∈ fs → f p = .error e →
      walkFn fs p true true none = (.skipDir, false) ∧
      ∀ msg, (walkFn fs p true true none).1 ≠ .fail msg) := by
  refine ⟨fun fs => checkFilters_iff fs p, by simp [checkFilters], ?_, ?_⟩
  · intro fs₁ fs₂ f e hf
    constructor
    · simp [checkFilters, hf, filterOk]
    · simp [checkFilters, hf, filterOk]
  · intro fs f e hmem hf
    have hall : checkFilters fs p = false := by
      rw [Bool.eq_false_iff]
      intro htrue
      have := (checkFilters_iff fs p).mp htrue f hmem
      rw [hf] at this
      exact Except.noConfusion this
    constructor
    · simp [walkFn, hall]
    · intro msg
      simp [walkFn, hall]

/-- Witness for C2 at a concrete erroring filter. -/
theorem c2_filter_composition_witness :
    ((fun _ => .error "boom" : GFilter) ["r"] = .error "boom") ∧
    (checkFilters [] ["r"] = true ∧
     walkFn [fun _ => .error "boom"] ["r"] true true none = (.skipDir, false)) :=
  ⟨rfl,
   (c2_filter_composition ["r"]).2.1,
   ((c2_filter_composition ["r"]).2.2.2 [fun _ => .error "boom"]
     (fun _ => .error "boom") "boom" (by simp) rfl).1⟩

/-- C4: `getRemoteSyncStatus` inspects only the first line of the porcelain
branch-status output: a first line without the `##` marker is an error that
the caller (`statusRepo`) degrades to `SyncRemote`; otherwise a `[behind`
marker yields `BehindRemote`, then an `[ahead` marker yields `AheadRemote`,
and otherwise `SyncRemote`; the concrete line
`## feature...origin/feature [behind 2]` yields `BehindRemote`. -/
theorem c4_remote_sync_parsing :
    (∀ out outB : String, firstLineOf out = firstLineOf outB →
      getRemoteSyncStatus (.ok out) = getRemoteSyncStatus (.ok outB)) ∧
    (∀ out : String, strStartsWith (firstLineOf out) "##" = false →
      (∃ e, getRemoteSyncStatus (.ok out) = (.SyncRemote, some e)) ∧
      remoteSyncOf (.ok out) = .SyncRemote) ∧
    (∀ out : String, strStartsWith (firstLineOf out) "##" = true →
      strContainsSub (firstLineOf out) "[behind" = true →
      getRemoteSyncStatus (.ok out) = (.BehindRemote, none)) ∧
    (∀ out : String, strStartsWith (firstLineOf out) "##" = true →
      strContainsSub (firstLineOf out) "[behind" = false →
      strContainsSub (firstLineOf out) "[ahead" = true →
      getRemoteSyncStatus (.ok out) = (.AheadRemote, none)) ∧
    (∀ out : String, strStartsWith (firstLineOf out) "##" = true →
      strContainsSub (firstLineOf out) "[behind" = false →
      strContainsSub (firstLineOf out) "[ahead" = false →
      getRemoteSyncStatus (.ok out) = (.SyncRemote, none)) ∧
    getRemoteSyncStatus (.ok "## feature...origin/feature [behind 2]") =
      (.BehindRemote, none) := by
  refine ⟨?_, ?_, ?_, ?_, ?_, by decide⟩
  · intro out outB h
    simp only [getRemoteSyncStatus, h]
  · intro out h
    refine ⟨⟨"first line `" ++ firstLineOf out ++ "` does not start with expected `##`", ?_⟩, ?_⟩
    · simp [getRemoteSyncStatus, h]
    · simp [remoteSyncOf, getRemoteSyncStatus, h]
  · intro out h hb
    simp [getRemoteSyncStatus, h, hb]
  · intro out h hb ha
    simp [getRemoteSyncStatus, h, hb, ha]
  · intro out h hb ha
    simp [getRemoteSyncStatus, h, hb, ha]

/-- Witness for C4 at the scenario's concrete branch-status line. -/
theorem c4_remote_sync_parsing_witness :
    (strStartsWith (firstLineOf "## feature...origin/feature [behind 2]") "##" = true ∧
     strContainsSub (firstLineOf "## feature...origin/feature [behind 2]") "[behind" = true) ∧
    getRemoteSyncStatus (.ok "## feature...origin/feature [behind 2]") =
      (.BehindRemote, none) :=
  ⟨⟨by decide, by decide⟩,
   c4_remote_sync_parsing.2.2.1 "## feature...origin/feature [behind 2]"
     (by decide) (by decide)⟩

/-- C5: the printed output is the multiset of formatted result strings sorted
lexicographically, one per line; two runs producing the same multiset of
result texts (in any completion order) print identical output. -/
theorem c5_deterministic_output (l₁ l₂ : List String) (h : l₁.Perm l₂) :
    printedResults l₁ = printedResults l₂ ∧
    (sortStrings l₁).Sorted (fun a b => a ≤ b) ∧
    (sortStrings l₁).Perm l₁ := by
  have hs : ∀ l : List String, (sortStrings l).Sorted (fun a b => a ≤ b) :=
    fun l => List.sorted_insertionSort _ l
  have hp : ∀ l : List String, (sortStrings l).Perm l :=
    fun l => List.perm_insertionSort _ l
  have heq : sortStrings l₁ = sortStrings l₂ := by
    refine List.eq_of_perm_of_sorted ?_ (hs l₁) (hs l₂)
    exact ((hp l₁).trans h).trans (hp l₂).symm
  exact ⟨by rw [printedResults, printedResults, heq], hs l₁, hp l₁⟩

/-- Witness for C5 on two reorderings of the same results. -/
theorem c5_deterministic_output_witness :
    (["b", "a"] : List String).Perm ["a", "b"] ∧
    printedResults ["b", "a"] = printedResults ["a", "b"] :=
  ⟨by decide, (c5_deterministic_output ["b", "a"] ["a", "b"] (by decide)).1⟩

theorem runCommandMode_aux (tasks : List (String × String × Int)) (st : List String × Nat) :
    (tasks.foldl (fun st t => processRepoStep t.1 t.2.1 t.2.2 st) st).2 = 0 ↔
      st.2 = 0 ∧ ∀ t ∈ tasks, t.2.2 = 0 := by
  induction tasks generalizing st with
  | nil => simp
  | cons t rest ih =>
    simp only [List.foldl_cons, ih]
    by_cases h : t.2.2 = 0
    · simp [processRepoStep, h, List.forall_mem_cons]
    · simp [processRepoStep, h, List.forall_mem_cons]

theorem runStatusMode_aux (width : Nat)
    (tasks : List (String × Except String String × Except String String ×
      Except String String × Except String String × Except String String))
    (st : List String × Nat) :
    (tasks.foldl
      (fun st t => statusRepoStep t.1 width t.2.1 t.2.2.1 t.2.2.2.1 t.2.2.2.2.1 t.2.2.2.2.2 st)
      st).2 = st.2 := by
  induction tasks generalizing st with
  | nil => rfl
  | cons t rest ih =>
    rw [List.foldl_cons, ih]
    rfl

/-- C3: absent a fatal discovery error, the process exits 0 iff no command
task's external command exited non-zero; in status mode `statusRepo` never
touches the failure flag, so the exit code is always 0 absent a fatal error;
the flag starts at success (0), is only ever set to failure (1) by a
non-zero command exit, and is never reset. -/
theorem c3_exit_code (fatal : Bool) (tasks : List (String × String × Int))
    (stasks : List (String × Except String String × Except String String ×
      Except String String × Except String String × Except String String))
    (width : Nat) :
    (mainExit fatal (runCommandMode tasks).2 = 0 ↔
      fatal = false ∧ ∀ t ∈ tasks, t.2.2 = 0) ∧
    (mainExit fatal (runStatusMode width stasks).2 = 0 ↔ fatal = false) ∧
    (runCommandMode []).2 = 0 ∧
    (∀ (rel out : String) (e : Int) (st : List String × Nat),
      (processRepoStep rel out e st).2 = (if e ≠ 0 then 1 else st.2) ∧
      (st.2 = 1 → (processRepoStep rel out e st).2 = 1)) ∧
    (∀ (rel : String) (w : Nat) (o₁ o₂ o₃ o₄ o₅ : Except String String)
      (st : List String × Nat),
      (statusRepoStep rel w o₁ o₂ o₃ o₄ o₅ st).2 = st.2) := by
  refine ⟨?_, ?_, rfl, ?_, ?_⟩
  · rw [mainExit]
    cases fatal with
    | false =>
      simpa [runCommandMode] using runCommandMode_aux tasks ([], 0)
    | true => simp
  · rw [mainExit]
    cases fatal with
    | false => simp [runStatusMode, runStatusMode_aux]
    | true => simp
  · intro rel out e st
    refine ⟨rfl, fun h => ?_⟩
    by_cases he : e = 0 <;> simp [processRepoStep, he, h]
  · intro rel w o₁ o₂ o₃ o₄ o₅ st
    rfl

/-- Witness for C3: a run with one failing command task exits 1, a status run
exits 0. -/
theorem c3_exit_code_witness :
    (mainExit false (runCommandMode [("r", "out", 1)]).2 = 0 ↔
      false = false ∧ ∀ t ∈ [("r", "out", (1 : Int))], t.2.2 = 0) ∧
    (mainExit false (runStatusMode 1 [("r", .ok "m", .ok "", .ok "## m", .ok "", .ok "m")]).2 = 0 ↔
      false = false) ∧
    ((["x"], 1) : List String × Nat).2 = 1 ∧
    (processRepoStep "r" "out" 0 (["x"], 1)).2 = 1 :=
  ⟨(c3_exit_code false [("r", "out", 1)] [("r", .ok "m", .ok "", .ok "## m", .ok "", .ok "m")] 1).1,
   (c3_exit_code false [("r", "out", 1)] [("r", .ok "m", .ok "", .ok "## m", .ok "", .ok "m")] 1).2.1,
   rfl,
   ((c3_exit_code false [("r", "out", 1)] [("r", .ok "m", .ok "", .ok "## m", .ok "", .ok "m")] 1).2.2.2.1
     "r" "out" 0 (["x"], 1)).2 rfl⟩

/-- C10: with the `-status` flag set, trailing command arguments are silently
ignored — the status action is chosen and dispatched for every matched
repository, no command action is ever dispatched, no error is produced — and
the fatal "No command provided" exit can only occur with status mode off. -/
theorem c10_status_ignores_command (args : List String) (repos : List String) :
    chooseAction true args = .ok .statusAction ∧
    dispatchActions true args repos = .ok (repos.map (fun r => (r, .statusAction))) ∧
    (∀ (st : Bool), chooseAction st args = .error "No command provided" →
      st = false ∧ args = []) := by
  refine ⟨rfl, rfl, ?_⟩
  intro st h
  cases st with
  | true => exact absurd h (by simp [chooseAction])
  | false =>
    refine ⟨rfl, ?_⟩
    by_cases ha : args.isEmpty
    · exact List.isEmpty_iff.mp ha
    · exact absurd h (by simp [chooseAction, ha])

/-- Witness for C10 with a non-empty trailing command under `-status`. -/
theorem c10_status_ignores_command_witness :
    chooseAction false [] = .error "No command provided" ∧
    (chooseAction true ["git", "pull"] = .ok .statusAction ∧
     dispatchActions true ["git", "pull"] ["a", "b"] =
       .ok [("a", .statusAction), ("b", .statusAction)]) ∧
    (false = false ∧ ([] : List String) = []) :=
  ⟨rfl,
   ⟨(c10_status_ignores_command ["git", "pull"] ["a", "b"]).1,
    (c10_status_ignores_command ["git", "pull"] ["a", "b"]).2.1⟩,
   (c10_status_ignores_command [] ["a", "b"]).2.2 false rfl⟩

theorem longestName_aux_ge_init (g : String → Nat) (l : List String) (acc : Nat) :
    acc ≤ l.foldl (fun a r => if g r > a then g r else a) acc := by
  induction l generalizing acc with
  | nil => exact Nat.le_refl acc
  | cons r rest ih =>
    simp only [List.foldl_cons]
    by_cases h : g r > acc
    · simp only [h, if_pos]
      exact Nat.le_trans (Nat.le_of_lt h) (ih (g r))
    · simp only [h, if_neg, if_false]
      exact ih acc

theorem longestName_aux_ge_mem (g : String → Nat) (l : List String) (acc : Nat)
    (r : String) (hr : r ∈ l) :
    g r ≤ l.foldl (fun a s => if g s > a then g s else a) acc := by
  induction l generalizing acc with
  | nil => cases hr
  | cons x rest ih =>
    simp only [List.foldl_cons]
    rcases List.mem_cons.mp hr with h | h
    · subst h
      refine Nat.le_trans ?_ (longestName_aux_ge_init g rest _)
      by_cases hx : g r > acc
      · simp [hx]
      · simp only [hx, if_false]
        exact Nat.le_of_not_lt hx
    · exact ih _ h

theorem longestName_aux_attained (g : String → Nat) (l : List String) (acc : Nat) :
    l.foldl (fun a s => if g s > a then g s else a) acc = acc ∨
      ∃ r ∈ l, l.foldl (fun a s => if g s > a then g s else a) acc = g r := by
  induction l generalizing acc with
  | nil => exact Or.inl rfl
  | cons x rest ih =>
    simp only [List.foldl_cons]
    by_cases hx : g x > acc
    · simp only [hx, if_pos]
      rcases ih (g x) with h | ⟨r, hr, h⟩
      · exact Or.inr ⟨x, List.mem_cons_self x rest, h⟩
      · exact Or.inr ⟨r, List.mem_cons_of_mem x hr, h⟩
    · simp only [hx, if_false]
      rcases ih acc with h | ⟨r, hr, h⟩
      · exact Or.inl h
      · exact Or.inr ⟨r, List.mem_cons_of_mem x hr, h⟩

theorem longestName_ge_mem (relOf : String → String) (repos : List String)
    (r : String) (hr : r ∈ repos) : (relOf r).length ≤ longestName relOf repos :=
  longestName_aux_ge_mem (fun s => (relOf s).length) repos 0 r hr

theorem longestName_attained (relOf : String → String) (repos : List String) :
    longestName relOf repos = 0 ∨
      ∃ r ∈ repos, longestName relOf repos = (relOf r).length :=
  longestName_aux_attained (fun s => (relOf s).length) repos 0

theorem padRight_length (s : String) (w : Nat) (h : s.length ≤ w) :
    (padRight s w).length = w := by
  simp only [padRight, String.length_append, String.length_mk, List.length_replicate]
  omega

/-- C8: the status column width computed by the `longestName` loop equals the
length of the longest relative path over all matched repositories; every
rendered status line left-justifies its relative path into exactly that
width; relative paths of lengths 3 and 12 give width 12 for both lines. -/
theorem c8_status_column_width (relOf : String → String) (repos : List String)
    (path : String) (o₁ o₂ o₃ o₄ o₅ : Except String String) :
    (∀ r ∈ repos, (relOf r).length ≤ longestName relOf repos) ∧
    (repos ≠ [] → ∃ r ∈ repos, (relOf r).length = longestName relOf repos) ∧
    (∃ rest, applyStatusAction relOf repos path o₁ o₂ o₃ o₄ o₅ =
      "\x1b[1m" ++ padRight (relOf path) (longestName relOf repos) ++ "\x1b[0m" ++ rest) ∧
    (∀ (s : String) (w : Nat), s.length ≤ w → (padRight s w).length = w) ∧
    (∀ r₁ r₂ : String, r₁.length = 3 → r₂.length = 12 → longestName id [r₁, r₂] = 12) := by
  refine ⟨fun r hr => longestName_ge_mem relOf repos r hr, ?_, ⟨_, rfl⟩, padRight_length, ?_⟩
  · intro hne
    rcases longestName_attained relOf repos with h | ⟨r, hr, h⟩
    · rcases repos with _ | ⟨x, rest⟩
      · exact absurd rfl hne
      · refine ⟨x, List.mem_cons_self x rest, ?_⟩
        have hx := longestName_ge_mem relOf (x :: rest) x (List.mem_cons_self x rest)
        omega
    · exact ⟨r, hr, h.symm⟩
  · intro r₁ r₂ h₁ h₂
    simp [longestName, h₁, h₂]

/-- Witness for C8 at relative paths of lengths 3 and 12. -/
theorem c8_status_column_width_witness :
    (("abc" : String).length = 3 ∧ ("abcdefghijkl" : String).length = 12) ∧
    longestName id ["abc", "abcdefghijkl"] = 12 :=
  ⟨⟨by decide, by decide⟩,
   (c8_status_column_width id ["abc", "abcdefghijkl"] "abc"
     (.ok "") (.ok "") (.ok "") (.ok "") (.ok "")).2.2.2.2 "abc" "abcdefghijkl"
     (by decide) (by decide)⟩

/-- C7: `statusRepo` computes each field independently with per-field
degradation: a failing current-branch query yields a placeholder carrying the
error text, a failing default-branch query yields `"main"`, a failing
remote-sync query yields `SyncRemote`, a failing cleanliness query is treated
as not-clean, the displayed other-branch names are exactly the retrieved
local branches minus the current branch sorted lexicographically, and a
status line is always produced. -/
theorem c7_status_degradation :
    (∀ e, currentBranchOf (.error e) = "!" ++ e) ∧
    (∀ e, defaultBranchOf (.error e) = "main") ∧
    (∀ o : Except String String, (getRemoteSyncStatus o).2 ≠ none →
      remoteSyncOf o = .SyncRemote) ∧
    (∀ e, cleanOf (.error e) = false) ∧
    (∀ (o : Except String String) (cur : String),
      (otherBranchesOf o cur).Sorted (fun a b => a ≤ b) ∧
      (otherBranchesOf o cur).Perm ((localBranchesOf o).filter (fun x => x ≠ cur)) ∧
      ∀ e, localBranchesOf (.error e) = []) ∧
    (∀ (relPath : String) (width : Nat) (o₁ o₂ o₃ o₄ o₅ : Except String String),
      ∃ rest, statusRepo relPath width o₁ o₂ o₃ o₄ o₅ =
        "\x1b[1m" ++ padRight relPath width ++ "\x1b[0m" ++ rest) := by
  refine ⟨fun e => rfl, fun e => rfl, ?_, fun e => rfl, ?_, ?_⟩
  · intro o h
    rw [remoteSyncOf]
    rcases hro : getRemoteSyncStatus o with ⟨s, err⟩
    cases err with
    | none => exact absurd (by rw [hro]) h
    | some e => simp
  · intro o cur
    exact ⟨List.sorted_insertionSort _ _, List.perm_insertionSort _ _, fun e => rfl⟩
  · intro relPath width o₁ o₂ o₃ o₄ o₅
    exact ⟨_, rfl⟩

/-- Witness for C7 at concrete failing sub-queries. -/
theorem c7_status_degradation_witness :
    (getRemoteSyncStatus (.error "no upstream")).2 ≠ none ∧
    remoteSyncOf (.error "no upstream") = .SyncRemote :=
  ⟨by decide, c7_status_degradation.2.2.1 (.error "no upstream") (by decide)⟩

theorem orchReach_running_le (cap total : Nat) (s : OrchState)
    (h : orchReach cap total s) : s.running ≤ cap := by
  induction h with
  | refl => exact Nat.zero_le cap
  | tail _ step ih =>
    cases step with
    | acquire hp hr => exact hr
    | finish hr => exact Nat.le_trans (Nat.sub_le _ _) ih

theorem orchReach_conservation (cap total : Nat) (s : OrchState)
    (h : orchReach cap total s) : s.pending + s.running + s.done = total := by
  induction h with
  | refl => simp [orchInit]
  | tail _ step ih =>
    cases step with
    | acquire hp hr => simp only at ih ⊢; omega
    | finish hr => simp only at ih ⊢; omega

/-- C6: with semaphore capacity `cap`, at most `cap` tasks are ever running
in any reachable orchestration state (including the serial case `cap = 1`);
whenever work remains and `cap ≥ 1` some step is enabled (no deadlock); every
step strictly decreases a measure (so every execution is finite); and any
reachable state from which no step is possible has every task completed —
every dispatched task eventually completes and releases its slot. -/
theorem c6_bounded_parallelism (cap total : Nat) :
    (∀ s, orchReach cap total s → s.running ≤ cap) ∧
    (∀ s, orchReach cap total s → s.pending + s.running + s.done = total) ∧
    (1 ≤ cap → ∀ s : OrchState, 0 < s.pending + s.running →
      ∃ t, orchStep cap s t) ∧
    (∀ s t, orchStep cap s t → 2 * t.pending + t.running < 2 * s.pending + s.running) ∧
    (1 ≤ cap → ∀ s, orchReach cap total s → (∀ t, ¬ orchStep cap s t) →
      s.done = total) := by
  have progress : 1 ≤ cap → ∀ s : OrchState, 0 < s.pending + s.running →
      ∃ t, orchStep cap s t := by
    intro hcap s hs
    by_cases hr : 0 < s.running
    · exact ⟨_, orchStep.finish s hr⟩
    · have hp : 0 < s.pending := by omega
      have hlt : s.running < cap := by omega
      exact ⟨_, orchStep.acquire s hp hlt⟩
  refine ⟨orchReach_running_le cap total, orchReach_conservation cap total, progress, ?_, ?_⟩
  · intro s t step
    cases step with
    | acquire hp hr => simp only; omega
    | finish hr => simp only; omega
  · intro hcap s hreach hstuck
    have hcons := orchReach_conservation cap total s hreach
    by_cases hs : 0 < s.pending + s.running
    · obtain ⟨t, ht⟩ := progress hcap s hs
      exact absurd ht (hstuck t)
    · omega

/-- Witness for C6: capacity 1, two tasks, after one admission the bound and
conservation hold and a step is still enabled. -/
theorem c6_bounded_parallelism_witness :
    orchReach 1 2 ⟨1, 1, 0⟩ ∧
    (⟨1, 1, 0⟩ : OrchState).running ≤ 1 ∧
    (⟨1, 1, 0⟩ : OrchState).pending + (⟨1, 1, 0⟩ : OrchState).running +
      (⟨1, 1, 0⟩ : OrchState).done = 2 :=
  have hreach : orchReach 1 2 ⟨1, 1, 0⟩ :=
    Relation.ReflTransGen.single
      (orchStep.acquire (orchInit 2) (by decide) (by decide))
  ⟨hreach,
   (c6_bounded_parallelism 1 2).1 ⟨1, 1, 0⟩ hreach,
   (c6_bounded_parallelism 1 2).2.1 ⟨1, 1, 0⟩ hreach⟩

theorem namesOf_cons (e : FSEntry) (rest : List FSEntry) :
    namesOf (e :: rest) = entryName e :: namesOf rest := rfl

theorem snoc_prefix_eq (pre : GPath) (n m : String) (p : GPath)
    (h1 : pre ++ [n] <+: p) (h2 : pre ++ [m] <+: p) : n = m := by
  obtain ⟨t1, ht1⟩ := h1
  obtain ⟨t2, ht2⟩ := h2
  rw [← ht2] at ht1
  rw [List.append_assoc, List.append_assoc] at ht1
  have h3 := List.append_cancel_left ht1
  simp at h3
  exact h3.1

mutual

theorem reposDir_shape (pre : GPath) (e : FSEntry) (q : GPath) (h : q ∈ reposDir pre e) :
    ∃ t, q = pre ++ [entryName e] ++ t := by
  cases e with
  | file nm => simp [reposDir] at h
  | dir n cs =>
    rw [reposDir] at h
    rcases List.mem_append.mp h with h1 | h2
    · by_cases hg : isGitRepoC cs = true
      · simp only [hg, if_pos, List.mem_singleton] at h1
        exact ⟨[], by simp [entryName, h1]⟩
      · simp [hg] at h1
    · obtain ⟨m, t, hm, ht⟩ := reposList_shape (pre ++ [n]) cs q h2
      exact ⟨[m] ++ t, by simp only [entryName]; rw [ht]; simp [List.append_assoc]⟩

theorem reposList_shape (pre : GPath) (cs : List FSEntry) (q : GPath)
    (h : q ∈ reposList pre cs) :
    ∃ n t, n ∈ namesOf cs ∧ q = pre ++ [n] ++ t := by
  cases cs with
  | nil => simp [reposList] at h
  | cons e rest =>
    rw [reposList] at h
    rcases List.mem_append.mp h with h1 | h2
    · obtain ⟨t, ht⟩ := reposDir_shape pre e q h1
      exact ⟨entryName e, t, by rw [namesOf_cons]; exact List.mem_cons_self _ _, ht⟩
    · obtain ⟨n, t, hn, ht⟩ := reposList_shape pre rest q h2
      exact ⟨n, t, by rw [namesOf_cons]; exact List.mem_cons_of_mem _ hn, ht⟩

end

mutual

theorem walkDir_char (fs : List GFilter) (pre : GPath) (e : FSEntry)
    (hwf : wfEntry e = true) (p : GPath) :
    p ∈ walkDir fs pre e ↔
      (p ∈ reposDir pre e ∧ checkFilters fs p = true ∧
        ∀ q ∈ reposDir pre e, q <+: p → q = p) := by
  cases e with
  | file nm => simp [walkDir, reposDir]
  | dir n cs =>
    by_cases hg : isGitRepoC cs = true
    · rw [walkDir, reposDir]
      simp only [hg, if_pos, List.singleton_append]
      constructor
      · intro hp
        by_cases hc : checkFilters fs (pre ++ [n]) = true
        · rw [if_pos hc, List.mem_singleton] at hp
          subst hp
          refine ⟨List.mem_cons_self _ _, hc, ?_⟩
          intro q hq hqp
          rcases List.mem_cons.mp hq with h | hq2
          · exact h
          · exfalso
            obtain ⟨m, t, hm, ht⟩ := reposList_shape (pre ++ [n]) cs q hq2
            have hlen := hqp.length_le
            rw [ht] at hlen
            simp [List.length_append] at hlen
        · rw [if_neg hc] at hp
          simp at hp
      · rintro ⟨hmem, hflt, hanc⟩
        rcases List.mem_cons.mp hmem with h | hnest
        · subst h
          rw [if_pos hflt]
          exact List.mem_singleton.mpr rfl
        · exfalso
          obtain ⟨m, t, hm, ht⟩ := reposList_shape (pre ++ [n]) cs p hnest
          have hqp : (pre ++ [n]) <+: p := by
            rw [ht]
            exact ⟨[m] ++ t, by simp [List.append_assoc]⟩
          have heq := hanc (pre ++ [n]) (List.mem_cons_self _ _) hqp
          rw [ht] at heq
          have hl := congrArg List.length heq
          simp [List.length_append] at hl
    · rw [walkDir, reposDir]
      simp only [hg, if_neg, if_false, List.nil_append]
      rw [wfEntry] at hwf
      exact walkList_char fs (pre ++ [n]) cs hwf p

theorem walkList_char (fs : List GFilter) (pre : GPath) (cs : List FSEntry)
    (hwf : wfL cs = true) (p : GPath) :
    p ∈ walkList fs pre cs ↔
      (p ∈ reposList pre cs ∧ checkFilters fs p = true ∧
        ∀ q ∈ reposList pre cs, q <+: p → q = p) := by
  cases cs with
  | nil => simp [walkList, reposList]
  | cons e rest =>
    rw [wfL, Bool.and_eq_true] at hwf
    have hnodup : (namesOf (e :: rest)).Nodup := of_decide_eq_true hwf.1
    rw [namesOf_cons, List.nodup_cons] at hnodup
    obtain ⟨hne, hndr⟩ := hnodup
    rw [wfChildren, Bool.and_eq_true] at hwf
    have hwe : wfEntry e = true := hwf.2.1
    have hwfr : wfL rest = true := by
      rw [wfL, Bool.and_eq_true]
      exact ⟨decide_eq_true hndr, hwf.2.2⟩
    have ihA := walkDir_char fs pre e hwe
    have ihB := walkList_char fs pre rest hwfr
    rw [walkList, reposList]
    constructor
    · intro hp
      rcases List.mem_append.mp hp with h1 | h2
      · obtain ⟨hmem, hflt, hanc⟩ := (ihA p).mp h1
        refine ⟨List.mem_append.mpr (Or.inl hmem), hflt, ?_⟩
        intro q hq hqp
        rcases List.mem_append.mp hq with hql | hqr
        · exact hanc q hql hqp
        · exfalso
          obtain ⟨t1, ht1⟩ := reposDir_shape pre e p hmem
          obtain ⟨m, t2, hm, ht2⟩ := reposList_shape pre rest q hqr
          have hp1 : pre ++ [entryName e] <+: p := ⟨t1, ht1.symm⟩
          have hp2 : pre ++ [m] <+: p :=
            List.IsPrefix.trans ⟨t2, ht2.symm⟩ hqp
          have heq := snoc_prefix_eq pre (entryName e) m p hp1 hp2
          exact hne (heq ▸ hm)
      · obtain ⟨hmem, hflt, hanc⟩ := (ihB p).mp h2
        refine ⟨List.mem_append.mpr (Or.inr hmem), hflt, ?_⟩
        intro q hq hqp
        rcases List.mem_append.mp hq with hql | hqr
        · exfalso
          obtain ⟨t1, ht1⟩ := reposDir_shape pre e q hql
          obtain ⟨m, t2, hm, ht2⟩ := reposList_shape pre rest p hmem
          have hp1 : pre ++ [entryName e] <+: p :=
            List.IsPrefix.trans ⟨t1, ht1.symm⟩ hqp
          have hp2 : pre ++ [m] <+: p := ⟨t2, ht2.symm⟩
          have heq := snoc_prefix_eq pre (entryName e) m p hp1 hp2
          exact hne (heq ▸ hm)
        · exact hanc q hqr hqp
    · rintro ⟨hmem, hflt, hanc⟩
      rcases List.mem_append.mp hmem with h1 | h2
      · refine List.mem_append.mpr (Or.inl ?_)
        exact (ihA p).mpr
          ⟨h1, hflt, fun q hq hqp => hanc q (List.mem_append.mpr (Or.inl hq)) hqp⟩
      · refine List.mem_append.mpr (Or.inr ?_)
        exact (ihB p).mpr
          ⟨h2, hflt, fun q hq hqp => hanc q (List.mem_append.mpr (Or.inr hq)) hqp⟩

end

/-- C1: for a well-formed directory tree, a path is in the discovered
repository list iff it is a directory directly containing a `.git` directory
entry (`p ∈ reposDir`), every active filter returns true for it, and no
repository root lies strictly above it (the walk prunes descent at every
repository root, so nested repositories are never separately reported); the
final list is lexicographically sorted, and no discovered path is a strict
descendant (path extension) of another. -/
theorem c1_discovery_characterization (fs : List GFilter) (root : FSEntry)
    (hwf : wfEntry root = true) :
    (∀ p, p ∈ walkDir fs [] root ↔
      (p ∈ reposDir [] root ∧ checkFilters fs p = true ∧
        ∀ q ∈ reposDir [] root, q <+: p → q = p)) ∧
    (discoverRepos fs root).Sorted (fun a b => a ≤ b) ∧
    (discoverRepos fs root).Perm ((walkDir fs [] root).map pathStr) ∧
    (∀ p ∈ walkDir fs [] root, ∀ q ∈ walkDir fs [] root, q <+: p → q = p) := by
  refine ⟨fun p => walkDir_char fs [] root hwf p,
    List.sorted_insertionSort _ _, List.perm_insertionSort _ _, ?_⟩
  intro p hp q hq hqp
  obtain ⟨_, _, hanc⟩ := (walkDir_char fs [] root hwf p).mp hp
  obtain ⟨hqr, _, _⟩ := (walkDir_char fs [] root hwf q).mp hq
  exact hanc q hqr hqp

/-- A sample tree: the root holds repository `a` (which contains a nested
repository `a/sub`) and a non-repository directory `b` holding repository
`b/c`. -/
def sampleTree : FSEntry :=
  .dir "root"
    [.dir "a" [.dir ".git" [], .dir "sub" [.dir ".git" []]],
     .dir "b" [.dir "c" [.dir ".git" []]],
     .file "x"]

/-- Witness for C1 on `sampleTree` with no filters: exactly the two
non-nested repositories are discovered, in sorted order. -/
theorem c1_discovery_characterization_witness :
    wfEntry sampleTree = true ∧
    (∀ p, p ∈ walkDir [] [] sampleTree ↔
      (p ∈ reposDir [] sampleTree ∧ checkFilters [] p = true ∧
        ∀ q ∈ reposDir [] sampleTree, q <+: p → q = p)) ∧
    walkDir [] [] sampleTree = [["root", "a"], ["root", "b", "c"]] ∧
    reposDir [] sampleTree =
      [["root", "a"], ["root", "a", "sub"], ["root", "b", "c"]] :=
  ⟨by decide,
   (c1_discovery_characterization [] sampleTree (by decide)).1,
   by decide, by decide⟩

theorem checkFilters_subset (fs fsMore : List GFilter)
    (hsub : ∀ f ∈ fs, f ∈ fsMore) (p : GPath)
    (h : checkFilters fsMore p = true) : checkFilters fs p = true :=
  checkFilters_mono fs fsMore hsub p h

mutual

theorem walkDir_mono (fs fsMore : List GFilter) (hsub : ∀ f ∈ fs, f ∈ fsMore)
    (pre : GPath) (e : FSEntry) (p : GPath) (hp : p ∈ walkDir fsMore pre e) :
    p ∈ walkDir fs pre e := by
  cases e with
  | file nm => simp [walkDir] at hp
  | dir n cs =>
    rw [walkDir] at hp ⊢
    by_cases hg : isGitRepoC cs = true
    · rw [if_pos hg] at hp ⊢
      by_cases hc : checkFilters fsMore (pre ++ [n]) = true
      · rw [if_pos hc] at hp
        rw [if_pos (checkFilters_subset fs fsMore hsub _ hc)]
        exact hp
      · rw [if_neg hc] at hp
        simp at hp
    · rw [if_neg hg] at hp ⊢
      exact walkList_mono fs fsMore hsub (pre ++ [n]) cs p hp

theorem walkList_mono (fs fsMore : List GFilter) (hsub : ∀ f ∈ fs, f ∈ fsMore)
    (pre : GPath) (cs : List FSEntry) (p : GPath) (hp : p ∈ walkList fsMore pre cs) :
    p ∈ walkList fs pre cs := by
  cases cs with
  | nil => simp [walkList] at hp
  | cons e rest =>
    rw [walkList] at hp ⊢
    rcases List.mem_append.mp hp with h1 | h2
    · exact List.mem_append.mpr (Or.inl (walkDir_mono fs fsMore hsub pre e p h1))
    · exact List.mem_append.mpr (Or.inr (walkList_mono fs fsMore hsub pre rest p h2))

end

/-- C9: adding filters can only shrink the matched repository set — with
`fs ⊆ fsMore`, every repository discovered under the larger filter set
`fsMore` is also discovered under `fs`, both at the path level and in the
final sorted string list. -/
theorem c9_filters_monotone (fs fsMore : List GFilter)
    (hsub : ∀ f ∈ fs, f ∈ fsMore) (root : FSEntry) :
    (∀ p, p ∈ walkDir fsMore [] root → p ∈ walkDir fs [] root) ∧
    (∀ s, s ∈ discoverRepos fsMore root → s ∈ discoverRepos fs root) := by
  refine ⟨fun p hp => walkDir_mono fs fsMore hsub [] root p hp, ?_⟩
  intro s hs
  rw [discoverRepos, sortStrings] at hs ⊢
  rw [List.mem_insertionSort] at hs ⊢
  obtain ⟨p, hp, hps⟩ := List.mem_map.mp hs
  exact List.mem_map.mpr ⟨p, walkDir_mono fs fsMore hsub [] root p hp, hps⟩

/-- Witness for C9: on `sampleTree`, a reject-everything filter added to the
empty filter set shrinks the discovered set. -/
theorem c9_filters_monotone_witness :
    (∀ f, f ∈ ([] : List GFilter) → f ∈ [fun _ => (.ok false : Except String Bool)]) ∧
    (∀ p, p ∈ walkDir [fun _ => (.ok false : Except String Bool)] [] sampleTree →
      p ∈ walkDir [] [] sampleTree) :=
  ⟨fun f hf => absurd hf (List.not_mem_nil f),
   (c9_filters_monotone [] [fun _ => (.ok false : Except String Bool)]
     (fun f hf => absurd hf (List.not_mem_nil f)) sampleTree).1⟩

end Gits
